import Mathlib

set_option maxRecDepth 8192

/-!
# Verification of the `hex_it` terminal hex editor core

Shallow embedding of `src/main.rs`: the hex codec (`hex_to_bytes`, the
`{:02X} ` per-byte formatting of `parse_file`), the editor buffer
operations (`parse_file`, `generate_message`), the command dispatch
branches of `CommandLine::parse_command` (`get`, `save`, unknown-command
suggestion), and the edit-distance function `levenshtein_distance`.

Machine integers are modelled as `Nat`/`Int` with explicit wrapping where
the Rust code could wrap.  Rust panics (`unwrap`, `expect`, out-of-bounds
indexing) are modelled as `none` / dedicated `panicked` constructors:
a panic in the main thread terminates the process.  File-system effects
are modelled by boolean success parameters; the bytes passed to
`write_all` are returned in the result.

Rust reads the file with `read_to_string` and rebuilds line text with
`String::from_utf8`, so UTF-8 encoding and a validating decoder are
modelled explicitly (`utf8EncodeChar`, `utf8Decode`), following Rust's
std semantics (canonical encodings only: no overlong forms, no
surrogates, code points at most 0x10FFFF).
-/

namespace HexIt

/-- Model of Rust `char::to_digit(16)`: digits `0-9`, letters `a-f`/`A-F`. -/
def charToDigit16 (c : Char) : Option Nat :=
  if '0' ≤ c ∧ c ≤ '9' then some (c.toNat - '0'.toNat)
  else if 'a' ≤ c ∧ c ≤ 'f' then some (c.toNat - 'a'.toNat + 10)
  else if 'A' ≤ c ∧ c ≤ 'F' then some (c.toNat - 'A'.toNat + 10)
  else none

/-- The loop of `hex_to_bytes` (src/main.rs:114-150): state is the output
vector `bytes`, the current `byte` accumulator (a `u8`, wrapping modelled
by `% 256`) and `nibble_count`. -/
def hexLoop : List Char → List Nat → Nat → Nat → Option (List Nat)
  | [], bytes, _, nibble_count =>
      if nibble_count ≠ 0 then none else some bytes
  | c :: cs, bytes, byte, nibble_count =>
      match charToDigit16 c with
      | none => none
      | some nibble =>
          let byte2 := ((byte <<< 4) ||| nibble) % 256
          if nibble_count + 1 = 2 then hexLoop cs (bytes ++ [byte2]) 0 0
          else hexLoop cs bytes byte2 (nibble_count + 1)

/-- `hex_to_bytes` (src/main.rs:114-150): decodes a hex string two digits
per byte; `none` models returning `None`. -/
def hex_to_bytes (hex_string : String) : Option (List Nat) :=
  hexLoop hex_string.data [] 0 0

/-- The spec's names for the two failure branches of `hex_to_bytes`:
`invalidHexDigit` is the `c.to_digit(16) == None` branch,
`oddLength` the final `nibble_count != 0` branch. -/
inductive HexError
  | invalidHexDigit
  | oddLength
  deriving DecidableEq, Repr

/-- `hexLoop` with the two `return None` sites tagged by `HexError`. -/
def hexLoopE : List Char → List Nat → Nat → Nat → Except HexError (List Nat)
  | [], bytes, _, nibble_count =>
      if nibble_count ≠ 0 then .error .oddLength else .ok bytes
  | c :: cs, bytes, byte, nibble_count =>
      match charToDigit16 c with
      | none => .error .invalidHexDigit
      | some nibble =>
          let byte2 := ((byte <<< 4) ||| nibble) % 256
          if nibble_count + 1 = 2 then hexLoopE cs (bytes ++ [byte2]) 0 0
          else hexLoopE cs bytes byte2 (nibble_count + 1)

/-- `hex_to_bytes` with its two failure branches labelled. -/
def hexToBytesE (hex_string : String) : Except HexError (List Nat) :=
  hexLoopE hex_string.data [] 0 0

theorem hexLoop_eq_toOption (cs : List Char) :
    ∀ bytes byte nc, hexLoop cs bytes byte nc = (hexLoopE cs bytes byte nc).toOption := by
  induction cs with
  | nil =>
      intro bytes byte nc
      simp only [hexLoop, hexLoopE]
      split <;> rfl
  | cons c cs ih =>
      intro bytes byte nc
      simp only [hexLoop, hexLoopE]
      cases charToDigit16 c with
      | none => rfl
      | some nibble =>
          simp only
          split <;> exact ih ..

/-- The `Option` version of the decoder is the labelled one with labels erased. -/
theorem hex_to_bytes_eq_toOption (s : String) :
    hex_to_bytes s = (hexToBytesE s).toOption :=
  hexLoop_eq_toOption s.data [] 0 0

/-- One upper-case hexadecimal digit, as produced by Rust's `{:02X}` format. -/
def hexDigit (d : Nat) : Char :=
  if d < 10 then Char.ofNat (48 + d) else Char.ofNat (55 + d)

/-- The two digits of `format!("{:02X}", byte)` for a `u8`. -/
def byteToHex (b : Nat) : List Char :=
  [hexDigit (b / 16), hexDigit (b % 16)]

/-- `format!("{:02X} ", byte)` as pushed by `parse_file` (src/main.rs:238). -/
def byteToHexSp (b : Nat) : List Char :=
  byteToHex b ++ [' ']

/-- `line.replace(' ', "")` on the character list of a hex line. -/
def stripSpaces (l : List Char) : List Char :=
  l.filter (fun c => c ≠ ' ')

/-- The chunking loop, with an explicit fuel argument (any bound on the
number of remaining elements) making the recursion structural, so the
kernel can evaluate it. -/
def chunksOfAux (k : Nat) : Nat → List α → List (List α)
  | _, [] => []
  | 0, _ :: _ => []
  | fuel + 1, a :: l => ((a :: l).take k) :: chunksOfAux k fuel ((a :: l).drop k)

/-- Model of Rust `slice::chunks(k)` (`k > 0`): consecutive chunks of `k`
elements, the last one possibly shorter. -/
def chunksOf (k : Nat) (l : List α) : List (List α) :=
  if k = 0 then [] else chunksOfAux k l.length l

/-- The fuel does not matter as long as it bounds the list length. -/
theorem chunksOfAux_congr (k : Nat) (hk : k ≠ 0) :
    ∀ (fuel fuel2 : Nat) (l : List α), l.length ≤ fuel → l.length ≤ fuel2 →
      chunksOfAux k fuel l = chunksOfAux k fuel2 l := by
  intro fuel
  induction fuel with
  | zero =>
      intro fuel2 l hl _
      have h0 : l = [] := List.eq_nil_of_length_eq_zero (Nat.le_zero.mp hl)
      subst h0
      cases fuel2 <;> rfl
  | succ fuel ih =>
      intro fuel2 l hl hl2
      cases l with
      | nil => cases fuel2 <;> rfl
      | cons a l =>
          cases fuel2 with
          | zero => simp at hl2
          | succ fuel2 =>
              simp only [chunksOfAux]
              congr 1
              apply ih
              · simp only [List.length_drop, List.length_cons] at *
                omega
              · simp only [List.length_drop, List.length_cons] at *
                omega

theorem chunksOf_nil (k : Nat) : chunksOf k ([] : List α) = [] := by
  by_cases hk : k = 0 <;> simp [chunksOf, hk, chunksOfAux]

theorem chunksOf_cons (k : Nat) (hk : k ≠ 0) (l : List α) (hl : l ≠ []) :
    chunksOf k l = l.take k :: chunksOf k (l.drop k) := by
  obtain ⟨a, l2, rfl⟩ := List.exists_cons_of_ne_nil hl
  simp only [chunksOf, if_neg hk, List.length_cons, chunksOfAux]
  congr 1
  apply chunksOfAux_congr k hk
  · simp only [List.length_drop, List.length_cons]
    omega
  · exact le_rfl

/-- Concatenating the chunks gives back the list. -/
theorem chunksOf_flatten (k : Nat) (hk : k ≠ 0) (l : List α) :
    (chunksOf k l).flatten = l := by
  have H : ∀ (n : Nat) (l : List α), l.length ≤ n → (chunksOf k l).flatten = l := by
    intro n
    induction n with
    | zero =>
        intro l hl
        have : l = [] := List.eq_nil_of_length_eq_zero (Nat.le_zero.mp hl)
        simp [this, chunksOf_nil]
    | succ n ih =>
        intro l hl
        by_cases hl0 : l = []
        · simp [hl0, chunksOf_nil]
        · rw [chunksOf_cons k hk l hl0]
          have hlen : (l.drop k).length ≤ n := by
            have : l.length ≠ 0 := fun h0 => hl0 (List.eq_nil_of_length_eq_zero h0)
            simp only [List.length_drop]
            omega
          simp only [List.flatten_cons]
          rw [ih (l.drop k) hlen, List.take_append_drop]
  exact H l.length l le_rfl

/-- One line of `parse_file` (src/main.rs:231-241): the 16-byte chunk is
split into groups of 2 and each byte is pushed as `"{:02X} "`. -/
def hexLineOfChunk (chunk : List Nat) : String :=
  String.mk ((chunksOf 2 chunk).flatMap (fun group => group.flatMap byteToHexSp))

/-- `EditorState::parse_file` (src/main.rs:222-246) on the byte content of
the file: chunks of 16 bytes, each rendered as a hex line. -/
def parseLines (contents : List Nat) : List String :=
  (chunksOf 16 contents).map hexLineOfChunk

theorem charToDigit16_hexDigit (d : Nat) (hd : d < 16) :
    charToDigit16 (hexDigit d) = some d := by
  have h : ∀ e : Fin 16, charToDigit16 (hexDigit e.val) = some e.val := by decide
  exact h ⟨d, hd⟩

theorem hexDigit_ne_space (d : Nat) (hd : d < 16) : hexDigit d ≠ ' ' := by
  have h : ∀ e : Fin 16, hexDigit e.val ≠ ' ' := by decide
  exact h ⟨d, hd⟩

theorem shiftLor_eq (x y : Nat) (hx : x < 16) (hy : y < 16) :
    ((x <<< 4) ||| y) % 256 = 16 * x + y := by
  have h : ∀ a b : Fin 16, ((a.val <<< 4) ||| b.val) % 256 = 16 * a.val + b.val := by decide
  exact h ⟨x, hx⟩ ⟨y, hy⟩

theorem hexLoop_cons_digit0 (c : Char) (d : Nat) (h : charToDigit16 c = some d)
    (cs : List Char) (bytes : List Nat) (byte : Nat) :
    hexLoop (c :: cs) bytes byte 0 = hexLoop cs bytes (((byte <<< 4) ||| d) % 256) 1 := by
  simp [hexLoop, h]

theorem hexLoop_cons_digit1 (c : Char) (d : Nat) (h : charToDigit16 c = some d)
    (cs : List Char) (bytes : List Nat) (byte : Nat) :
    hexLoop (c :: cs) bytes byte 1 = hexLoop cs (bytes ++ [((byte <<< 4) ||| d) % 256]) 0 0 := by
  simp [hexLoop, h]

/-- Decoding the two digits of one byte appends that byte and returns to
the initial loop state. -/
theorem hexLoop_byte (b : Nat) (hb : b < 256) (rest : List Char) (acc : List Nat) :
    hexLoop (byteToHex b ++ rest) acc 0 0 = hexLoop rest (acc ++ [b]) 0 0 := by
  have hhi : b / 16 < 16 := by omega
  have hlo : b % 16 < 16 := by omega
  have e1 : ((0 <<< 4) ||| b / 16) % 256 = b / 16 := by
    have h := shiftLor_eq 0 (b / 16) (by omega) hhi
    omega
  have e2 : (((b / 16) <<< 4) ||| b % 16) % 256 = b := by
    have h := shiftLor_eq (b / 16) (b % 16) hhi hlo
    omega
  simp only [byteToHex, List.cons_append, List.nil_append]
  rw [hexLoop_cons_digit0 _ _ (charToDigit16_hexDigit _ hhi), e1,
    hexLoop_cons_digit1 _ _ (charToDigit16_hexDigit _ hlo), e2]

/-- Running the decode loop over the two-digit encoding of a byte list
appends exactly that list to the accumulator. -/
theorem hexLoop_flatMap_byteToHex (B : List Nat) :
    ∀ acc, (∀ b ∈ B, b < 256) →
      hexLoop (B.flatMap byteToHex) acc 0 0 = some (acc ++ B) := by
  induction B with
  | nil => intro acc _; simp [hexLoop]
  | cons b B ih =>
      intro acc hB
      have hb : b < 256 := hB b (List.mem_cons_self b B)
      rw [List.flatMap_cons, hexLoop_byte b hb _ acc,
        ih (acc ++ [b]) (fun x hx => hB x (List.mem_cons_of_mem b hx))]
      simp

/-- Stripping spaces from the spaced per-byte encoding leaves the bare
two-digit encoding. -/
theorem stripSpaces_flatMap_byteToHexSp (B : List Nat) (hB : ∀ b ∈ B, b < 256) :
    stripSpaces (B.flatMap byteToHexSp) = B.flatMap byteToHex := by
  induction B with
  | nil => rfl
  | cons b B ih =>
      have hb : b < 256 := hB b (List.mem_cons_self b B)
      have hhi : b / 16 < 16 := by omega
      have hlo : b % 16 < 16 := by omega
      simp only [List.flatMap_cons, byteToHexSp, byteToHex, stripSpaces] at *
      simp only [List.filter_append, List.filter_cons, List.filter_nil]
      rw [← ih (fun x hx => hB x (List.mem_cons_of_mem b hx))]
      simp [hexDigit_ne_space _ hhi, hexDigit_ne_space _ hlo]

end HexIt

namespace HexIt

/-- Modelled from Rust std: the UTF-8 encoding of one Unicode scalar value
(`char::encode_utf8` / the byte representation underlying `str`),
written with `/` and `%` on `Nat` (bit masks replaced by the equivalent
arithmetic). -/
def utf8EncodeCp (n : Nat) : List Nat :=
  if n < 0x80 then [n]
  else if n < 0x800 then [0xC0 + n / 64, 0x80 + n % 64]
  else if n < 0x10000 then [0xE0 + n / 4096, 0x80 + n / 64 % 64, 0x80 + n % 64]
  else [0xF0 + n / 262144, 0x80 + n / 4096 % 64, 0x80 + n / 64 % 64, 0x80 + n % 64]

/-- Modelled from Rust std: `String::as_bytes` / `str::as_bytes` of a
string given as its character list. -/
def utf8Encode (cs : List Char) : List Nat :=
  cs.flatMap (fun c => utf8EncodeCp c.toNat)

/-- Modelled from Rust std: one step of the validating UTF-8 decoder
behind `String::from_utf8` and `read_to_string`.  Given the first byte
and the rest, returns the decoded code point and the remaining bytes.
Accepts only canonical encodings: continuation bytes in `0x80-0xBF`, no
overlong forms, no surrogate code points, code points at most `0x10FFFF`. -/
def utf8Step (b : Nat) (bs : List Nat) : Option (Nat × List Nat) :=
  if b < 0x80 then some (b, bs)
  else if 0xC2 ≤ b ∧ b ≤ 0xDF then
    match bs with
    | b2 :: rest =>
        if 0x80 ≤ b2 ∧ b2 ≤ 0xBF then some ((b - 0xC0) * 64 + (b2 - 0x80), rest)
        else none
    | [] => none
  else if 0xE0 ≤ b ∧ b ≤ 0xEF then
    match bs with
    | b2 :: b3 :: rest =>
        let cp := (b - 0xE0) * 4096 + (b2 - 0x80) * 64 + (b3 - 0x80)
        if 0x80 ≤ b2 ∧ b2 ≤ 0xBF ∧ 0x80 ≤ b3 ∧ b3 ≤ 0xBF ∧
            0x800 ≤ cp ∧ ¬(0xD800 ≤ cp ∧ cp ≤ 0xDFFF) then some (cp, rest)
        else none
    | _ => none
  else if 0xF0 ≤ b ∧ b ≤ 0xF4 then
    match bs with
    | b2 :: b3 :: b4 :: rest =>
        let cp := (b - 0xF0) * 262144 + (b2 - 0x80) * 4096 + (b3 - 0x80) * 64 + (b4 - 0x80)
        if 0x80 ≤ b2 ∧ b2 ≤ 0xBF ∧ 0x80 ≤ b3 ∧ b3 ≤ 0xBF ∧ 0x80 ≤ b4 ∧ b4 ≤ 0xBF ∧
            0x10000 ≤ cp ∧ cp ≤ 0x10FFFF then some (cp, rest)
        else none
    | _ => none
  else none

theorem utf8Step_length (b : Nat) (bs : List Nat) (cp : Nat) (rest : List Nat)
    (h : utf8Step b bs = some (cp, rest)) : rest.length ≤ bs.length := by
  unfold utf8Step at h
  split_ifs at h with h1 h2 h3 h4
  · cases h; exact le_rfl
  · cases bs with
    | nil => cases h
    | cons b2 rest' =>
        simp only at h
        split_ifs at h with hc
        cases h
        simp
  · cases bs with
    | nil => cases h
    | cons b2 bs' =>
        cases bs' with
        | nil => cases h
        | cons b3 rest' =>
            simp only at h
            split_ifs at h with hc
            cases h
            simp only [List.length_cons]
            omega
  · cases bs with
    | nil => cases h
    | cons b2 bs' =>
        cases bs' with
        | nil => cases h
        | cons b3 bs'' =>
            cases bs'' with
            | nil => cases h
            | cons b4 rest' =>
                simp only at h
                split_ifs at h with hc
                cases h
                simp only [List.length_cons]
                omega

/-- The decode loop of the validating UTF-8 decoder, with an explicit
fuel argument (any bound on the number of remaining bytes) making the
recursion structural, so the kernel can evaluate it. -/
def utf8DecodeAux : Nat → List Nat → Option (List Char)
  | _, [] => some []
  | 0, _ :: _ => none
  | fuel + 1, b :: bs =>
      match utf8Step b bs with
      | none => none
      | some (cp, rest) => (utf8DecodeAux fuel rest).map (fun cs => Char.ofNat cp :: cs)

/-- Modelled from Rust std: the validating UTF-8 decoder behind
`String::from_utf8` and `read_to_string` (`none` models `Err`). -/
def utf8Decode (bs : List Nat) : Option (List Char) :=
  utf8DecodeAux bs.length bs

theorem utf8DecodeAux_congr :
    ∀ (fuel fuel2 : Nat) (bs : List Nat), bs.length ≤ fuel → bs.length ≤ fuel2 →
      utf8DecodeAux fuel bs = utf8DecodeAux fuel2 bs := by
  intro fuel
  induction fuel with
  | zero =>
      intro fuel2 bs hl _
      have h0 : bs = [] := List.eq_nil_of_length_eq_zero (Nat.le_zero.mp hl)
      subst h0
      cases fuel2 <;> rfl
  | succ fuel ih =>
      intro fuel2 bs hl hl2
      cases bs with
      | nil => cases fuel2 <;> rfl
      | cons b bs =>
          cases fuel2 with
          | zero => simp at hl2
          | succ fuel2 =>
              simp only [utf8DecodeAux]
              cases hstep : utf8Step b bs with
              | none => rfl
              | some pr =>
                  obtain ⟨cp, rest⟩ := pr
                  have hr := utf8Step_length b bs cp rest hstep
                  simp only [List.length_cons] at hl hl2
                  exact congrArg (Option.map (fun cs => Char.ofNat cp :: cs))
                    (ih fuel2 rest (by omega) (by omega))

theorem utf8Decode_nil : utf8Decode [] = some [] := rfl

theorem utf8Decode_cons (b : Nat) (bs : List Nat) :
    utf8Decode (b :: bs) =
      match utf8Step b bs with
      | none => none
      | some (cp, rest) => (utf8Decode rest).map (fun cs => Char.ofNat cp :: cs) := by
  show utf8DecodeAux (bs.length + 1) (b :: bs) = _
  simp only [utf8DecodeAux]
  cases hstep : utf8Step b bs with
  | none => rfl
  | some pr =>
      obtain ⟨cp, rest⟩ := pr
      have hr := utf8Step_length b bs cp rest hstep
      exact congrArg (Option.map (fun cs => Char.ofNat cp :: cs))
        (utf8DecodeAux_congr bs.length rest.length rest (by omega) le_rfl)

theorem charOfNat_toNat (n : Nat) (h : n.isValidChar) : (Char.ofNat n).toNat = n := by
  simp only [Char.ofNat, h, dif_pos]
  simp only [Char.ofNatAux, Char.toNat]
  have hlt : n < 2 ^ 32 := by
    rcases h with h | ⟨_, h2⟩ <;> omega
  simp [UInt32.toNat, UInt32.ofNat', BitVec.toNat_ofNat, Nat.mod_eq_of_lt hlt]

/-- A successful decode step consumes exactly the canonical encoding of a
valid code point. -/
theorem utf8Step_spec (b : Nat) (bs : List Nat) (cp : Nat) (rest : List Nat)
    (h : utf8Step b bs = some (cp, rest)) :
    Nat.isValidChar cp ∧ utf8EncodeCp cp ++ rest = b :: bs := by
  unfold utf8Step at h
  split_ifs at h with h1 h2 h3 h4
  · cases h
    exact ⟨Or.inl (by omega), by simp [utf8EncodeCp, h1]⟩
  · cases bs with
    | nil => cases h
    | cons b2 rest' =>
        simp only at h
        split_ifs at h with hc
        cases h
        refine ⟨Or.inl (by omega), ?_⟩
        have e0 : ¬((b - 0xC0) * 64 + (b2 - 0x80) < 0x80) := by omega
        have e1 : (b - 0xC0) * 64 + (b2 - 0x80) < 0x800 := by omega
        rw [utf8EncodeCp, if_neg e0, if_pos e1]
        have g1 : 0xC0 + ((b - 0xC0) * 64 + (b2 - 0x80)) / 64 = b := by omega
        have g2 : 0x80 + ((b - 0xC0) * 64 + (b2 - 0x80)) % 64 = b2 := by omega
        rw [g1, g2]
        rfl
  · cases bs with
    | nil => cases h
    | cons b2 bs' =>
        cases bs' with
        | nil => cases h
        | cons b3 rest' =>
            simp only at h
            split_ifs at h with hc
            cases h
            obtain ⟨hb2a, hb2b, hb3a, hb3b, hlo, hsur⟩ := hc
            refine ⟨?_, ?_⟩
            · rcases Nat.lt_or_ge ((b - 0xE0) * 4096 + (b2 - 0x80) * 64 + (b3 - 0x80)) 0xD800
                with hlt | hge
              · exact Or.inl hlt
              · exact Or.inr ⟨by omega, by omega⟩
            · have e0 : ¬((b - 0xE0) * 4096 + (b2 - 0x80) * 64 + (b3 - 0x80) < 0x80) := by omega
              have e1 : ¬((b - 0xE0) * 4096 + (b2 - 0x80) * 64 + (b3 - 0x80) < 0x800) := by omega
              have e2 : (b - 0xE0) * 4096 + (b2 - 0x80) * 64 + (b3 - 0x80) < 0x10000 := by omega
              rw [utf8EncodeCp, if_neg e0, if_neg e1, if_pos e2]
              have g1 : 0xE0 + ((b - 0xE0) * 4096 + (b2 - 0x80) * 64 + (b3 - 0x80)) / 4096
                  = b := by omega
              have g2 : 0x80 + ((b - 0xE0) * 4096 + (b2 - 0x80) * 64 + (b3 - 0x80)) / 64 % 64
                  = b2 := by omega
              have g3 : 0x80 + ((b - 0xE0) * 4096 + (b2 - 0x80) * 64 + (b3 - 0x80)) % 64
                  = b3 := by omega
              rw [g1, g2, g3]
              rfl
  · cases bs with
    | nil => cases h
    | cons b2 bs' =>
        cases bs' with
        | nil => cases h
        | cons b3 bs'' =>
            cases bs'' with
            | nil => cases h
            | cons b4 rest' =>
                simp only at h
                split_ifs at h with hc
                cases h
                obtain ⟨hb2a, hb2b, hb3a, hb3b, hb4a, hb4b, hlo, hhi⟩ := hc
                refine ⟨Or.inr ⟨by omega, by omega⟩, ?_⟩
                have e0 : ¬((b - 0xF0) * 262144 + (b2 - 0x80) * 4096 + (b3 - 0x80) * 64
                    + (b4 - 0x80) < 0x80) := by omega
                have e1 : ¬((b - 0xF0) * 262144 + (b2 - 0x80) * 4096 + (b3 - 0x80) * 64
                    + (b4 - 0x80) < 0x800) := by omega
                have e2 : ¬((b - 0xF0) * 262144 + (b2 - 0x80) * 4096 + (b3 - 0x80) * 64
                    + (b4 - 0x80) < 0x10000) := by omega
                rw [utf8EncodeCp, if_neg e0, if_neg e1, if_neg e2]
                have g1 : 0xF0 + ((b - 0xF0) * 262144 + (b2 - 0x80) * 4096 + (b3 - 0x80) * 64
                    + (b4 - 0x80)) / 262144 = b := by omega
                have g2 : 0x80 + ((b - 0xF0) * 262144 + (b2 - 0x80) * 4096 + (b3 - 0x80) * 64
                    + (b4 - 0x80)) / 4096 % 64 = b2 := by omega
                have g3 : 0x80 + ((b - 0xF0) * 262144 + (b2 - 0x80) * 4096 + (b3 - 0x80) * 64
                    + (b4 - 0x80)) / 64 % 64 = b3 := by omega
                have g4 : 0x80 + ((b - 0xF0) * 262144 + (b2 - 0x80) * 4096 + (b3 - 0x80) * 64
                    + (b4 - 0x80)) % 64 = b4 := by omega
                rw [g1, g2, g3, g4]
                rfl

theorem char_toNat_lt (c : Char) : c.toNat < 0x110000 := by
  have h := c.valid
  rcases h with h | ⟨_, h2⟩
  · exact Nat.lt_trans h (by norm_num)
  · exact h2

theorem utf8EncodeCp_lt (n : Nat) (hn : n < 0x110000) :
    ∀ x ∈ utf8EncodeCp n, x < 256 := by
  intro x hx
  unfold utf8EncodeCp at hx
  split_ifs at hx with h1 h2 h3 <;> simp only [List.mem_cons, List.mem_singleton,
    List.not_mem_nil, or_false] at hx <;> rcases hx with rfl | hx <;> try omega

theorem utf8Encode_lt (cs : List Char) : ∀ x ∈ utf8Encode cs, x < 256 := by
  intro x hx
  unfold utf8Encode at hx
  rw [List.mem_flatMap] at hx
  obtain ⟨c, _, hxc⟩ := hx
  exact utf8EncodeCp_lt c.toNat (char_toNat_lt c) x hxc

theorem flatMap_flatten_eq (L : List (List α)) (f : α → List β) :
    L.flatMap (fun g => g.flatMap f) = L.flatten.flatMap f := by
  induction L with
  | nil => rfl
  | cons g L ih => simp [ih]

/-- Model of `line.replace(' ', "")` (src/main.rs:257,393). -/
def replaceSpaces (s : String) : String :=
  String.mk (stripSpaces s.data)

/-- The per-byte `"{:02X} "` pushes of one line concatenate to the spaced
encoding of the whole chunk: the inner grouping in pairs has no textual
effect. -/
theorem hexLineOfChunk_eq (chunk : List Nat) :
    hexLineOfChunk chunk = String.mk (chunk.flatMap byteToHexSp) := by
  unfold hexLineOfChunk
  rw [flatMap_flatten_eq, chunksOf_flatten 2 (by norm_num)]

/-- Decoding a stored hex line (after stripping spaces) recovers exactly
the chunk it was produced from. -/
theorem hexLine_decode (chunk : List Nat) (hB : ∀ b ∈ chunk, b < 256) :
    hex_to_bytes (replaceSpaces (hexLineOfChunk chunk)) = some chunk := by
  rw [hexLineOfChunk_eq]
  show hexLoop (stripSpaces (chunk.flatMap byteToHexSp)) [] 0 0 = some chunk
  rw [stripSpaces_flatMap_byteToHexSp chunk hB]
  exact hexLoop_flatMap_byteToHex chunk [] hB

theorem chunksOf_length (k : Nat) (hk : k ≠ 0) (l : List α) :
    (chunksOf k l).length = (l.length + k - 1) / k := by
  have H : ∀ (n : Nat) (l : List α), l.length ≤ n →
      (chunksOf k l).length = (l.length + k - 1) / k := by
    intro n
    induction n with
    | zero =>
        intro l hl
        have h0 : l = [] := List.eq_nil_of_length_eq_zero (Nat.le_zero.mp hl)
        subst h0
        simp [chunksOf_nil, Nat.div_eq_of_lt (by omega : k - 1 < k)]
    | succ n ih =>
        intro l hl
        by_cases hl0 : l = []
        · subst hl0
          simp [chunksOf_nil, Nat.div_eq_of_lt (by omega : k - 1 < k)]
        · rw [chunksOf_cons k hk l hl0]
          have hpos : 0 < l.length := List.length_pos.mpr hl0
          have hdl : (l.drop k).length = l.length - k := List.length_drop k l
          have hrec : (l.drop k).length ≤ n := by omega
          rw [List.length_cons, ih (l.drop k) hrec, hdl]
          rcases le_or_lt l.length k with hle | hlt
          · have e1 : l.length - k = 0 := by omega
            rw [e1]
            rw [Nat.div_eq_of_lt (by omega : 0 + k - 1 < k)]
            have e2 : l.length + k - 1 = (l.length - 1) + k := by omega
            rw [e2, Nat.add_div_right _ (by omega : 0 < k),
              Nat.div_eq_of_lt (by omega : l.length - 1 < k)]
          · have e2 : l.length + k - 1 = (l.length - k - 1 + k) + k := by omega
            have e3 : l.length - k + k - 1 = (l.length - k - 1) + k := by omega
            rw [e2, e3, Nat.add_div_right _ (by omega : 0 < k),
              Nat.add_div_right _ (by omega : 0 < k),
              Nat.add_div_right _ (by omega : 0 < k)]
  exact H l.length l le_rfl

theorem chunksOf_get? (k : Nat) (hk : k ≠ 0) :
    ∀ (i : Nat) (l : List α), i < (chunksOf k l).length →
      (chunksOf k l).get? i = some ((l.drop (k * i)).take k) := by
  intro i
  induction i with
  | zero =>
      intro l h
      have hl0 : l ≠ [] := by
        intro hl
        subst hl
        rw [chunksOf_nil] at h
        exact absurd h (by simp)
      rw [chunksOf_cons k hk l hl0]
      simp
  | succ i ih =>
      intro l h
      have hl0 : l ≠ [] := by
        intro hl
        subst hl
        rw [chunksOf_nil] at h
        exact absurd h (by simp)
      have hc := chunksOf_cons k hk l hl0
      have h2 : i < (chunksOf k (l.drop k)).length := by
        rw [hc] at h
        simpa using h
      rw [hc, List.get?_cons_succ, ih (l.drop k) h2, List.drop_drop]
      have e : k + k * i = k * (i + 1) := by ring
      rw [e]

theorem utf8Encode_cons (c : Char) (cs : List Char) :
    utf8Encode (c :: cs) = utf8EncodeCp c.toNat ++ utf8Encode cs := by
  simp [utf8Encode]

/-- Decoding succeeds only on exact encodings: the encoder inverts it. -/
theorem utf8Encode_of_decode (bs : List Nat) (cs : List Char)
    (h : utf8Decode bs = some cs) : utf8Encode cs = bs := by
  have H : ∀ (n : Nat) (bs : List Nat) (cs : List Char), bs.length ≤ n →
      utf8Decode bs = some cs → utf8Encode cs = bs := by
    intro n
    induction n with
    | zero =>
        intro bs cs hlen h
        have hbs : bs = [] := List.eq_nil_of_length_eq_zero (Nat.le_zero.mp hlen)
        subst hbs
        rw [utf8Decode_nil] at h
        cases h
        rfl
    | succ n ih =>
        intro bs cs hlen h
        cases bs with
        | nil =>
            rw [utf8Decode_nil] at h
            cases h
            rfl
        | cons b bs =>
            rw [utf8Decode_cons] at h
            split at h
            · cases h
            · rename_i cp rest hstep
              rw [Option.map_eq_some'] at h
              obtain ⟨cs', hdec, hcs⟩ := h
              subst hcs
              obtain ⟨hval, henc⟩ := utf8Step_spec b bs cp rest hstep
              have hrest : rest.length ≤ n := by
                have h1 := utf8Step_length b bs cp rest hstep
                simp only [List.length_cons] at hlen
                omega
              rw [utf8Encode_cons, charOfNat_toNat cp hval, ih rest cs' hrest hdec, henc]
  exact H bs.length bs cs le_rfl h

/-- The digits of `format!("{:X}", n)`, most significant first, prepended
to `acc`. -/
def toHexAux : Nat → List Char → List Char
  | 0, acc => acc
  | n + 1, acc => toHexAux ((n + 1) / 16) (hexDigit ((n + 1) % 16) :: acc)
  termination_by n => n
  decreasing_by omega

/-- Upper-case hexadecimal rendering of `n` (`"0"` for zero). -/
def toHexUpper (n : Nat) : List Char :=
  if n = 0 then ['0'] else toHexAux n []

/-- `format!("{:08X}", n)`: zero-padded to at least 8 digits. -/
def hexPad8 (n : Nat) : List Char :=
  List.replicate (8 - (toHexUpper n).length) '0' ++ toHexUpper n

/-- `format!("{:<48}", s)`: left-aligned, space-padded to at least 48
characters (never truncated). -/
def padTo48 (l : List Char) : List Char :=
  l ++ List.replicate (48 - l.length) ' '

/-- Modelled from the spec: `".".bold_black()` from the external
`tui_tools` crate (not under src/) — the "." glyph styled dim/bold-black
with ANSI escapes. -/
def boldBlackDot : String :=
  "\x1b[1;30m.\x1b[0m"

/-- The `newline_replacement` choice of `generate_message`
(src/main.rs:263-267). -/
def newlineReplacement (colors : Bool) : String :=
  if colors then boldBlackDot else "."

/-- `text.replace('\n', newline_replacement)` on character lists. -/
def replaceNewline (cs : List Char) (repl : String) : List Char :=
  cs.flatMap (fun c => if c = '\n' then repl.data else [c])

/-- One iteration of the `generate_message` loop (src/main.rs:255-277):
strip spaces, decode hex (`expect` panic modelled as `none`), rebuild the
text via `String::from_utf8` (`expect` panic as `none`), format
`"{:08X}  {:<48}  {}\n"`. -/
def renderLine (offset : Nat) (line : String) (colors : Bool) : Option (List Char) :=
  match hex_to_bytes (replaceSpaces line) with
  | none => none
  | some bytes =>
      match utf8Decode bytes with
      | none => none
      | some text =>
          some (hexPad8 offset ++ [' ', ' '] ++ padTo48 line.data ++ [' ', ' ']
            ++ replaceNewline text (newlineReplacement colors) ++ ['\n'])

def genLoop (colors : Bool) : List String → Nat → Option (List Char)
  | [], _ => some []
  | line :: rest, offset =>
      match renderLine offset line colors with
      | none => none
      | some s => (genLoop colors rest (offset + 16)).map (fun t => s ++ t)

/-- `EditorState::generate_message` (src/main.rs:249-280): the offset is
reset to 0 and incremented by 16 per line; `none` models a panic of one
of the two `expect` calls. -/
def generate_message (hex_lines : List String) (colors : Bool) : Option String :=
  (genLoop colors hex_lines 0).map String.mk

/-- The per-line closure of the save arm (src/main.rs:392-398): strip
spaces, `hex_to_bytes(...).unwrap()`, `String::from_utf8(bytes).unwrap()`;
`none` models a panic. -/
def decodeLineChars (line : String) : Option (List Char) := do
  let bytes ← hex_to_bytes (replaceSpaces line)
  let cs ← utf8Decode bytes
  pure cs

/-- `.map(per-line closure).collect::<String>()` over the stored lines. -/
def decodeLinesChars : List String → Option (List Char)
  | [] => some []
  | l :: rest => do
      let cs ← decodeLineChars l
      let tail ← decodeLinesChars rest
      pure (cs ++ tail)

/-- Result of the save arm: `exited` carries the bytes passed to
`write_all` and the path handed to `File::create`, and models the final
`process::exit(0)`; `panicked` models any `unwrap` panic (the process
aborts). -/
inductive SaveResult
  | exited (written : List Nat) (path : String)
  | panicked
  deriving DecidableEq, Repr

/-- The save arm of `CommandLine::parse_command` (src/main.rs:380-413).
`createOk`, `writeOk`, `canonOk` model success of `File::create`,
`write_all` and `canonicalize`; each is unwrapped, so `false` panics. -/
def saveCommand (hex_lines : List String) (arg : Option String) (editorFile : String)
    (createOk writeOk canonOk : Bool) : SaveResult :=
  let file_path := arg.getD editorFile
  if createOk = false then .panicked
  else
    match decodeLinesChars hex_lines with
    | none => .panicked
    | some contents =>
        if writeOk = false then .panicked
        else if canonOk = false then .panicked
        else .exited (utf8Encode contents) file_path

/-- Modelled from Rust std: `i32::from_str_radix(s, 16)` — optional
sign, at least one digit, all hex digits, result within `i32` range
(`none` models `Err`). -/
def parseHexI32 (s : String) : Option Int :=
  let sd : Int × List Char :=
    match s.data with
    | '+' :: rest => (1, rest)
    | '-' :: rest => (-1, rest)
    | l => (1, l)
  if sd.2 = [] then none
  else if sd.2.all (fun c => (charToDigit16 c).isSome) then
    let mag : Nat := sd.2.foldl (fun acc c => acc * 16 + ((charToDigit16 c).getD 0)) 0
    let v : Int := sd.1 * (mag : Int)
    if -(2 ^ 31) ≤ v ∧ v ≤ 2 ^ 31 - 1 then some v else none
  else none

/-- `(value / 16) as usize` for an `i32` value: Rust `/` truncates toward
zero, and `as usize` on a 64-bit target sign-extends negatives, giving
`2^64 + q`. -/
def i32Div16AsUsize (v : Int) : Nat :=
  let q : Int := if 0 ≤ v then ((v.toNat / 16 : Nat) : Int) else -(((-v).toNat / 16 : Nat) : Int)
  if 0 ≤ q then q.toNat else (2 ^ 64 + q).toNat

/-- Result of the get arm: `noLine` = "No line specified."; `exitFail` =
`process::exit(1)` after "Invalid value"; `outOfRange` = "Line out of
range." and return; `panicked` = an out-of-bounds index or a panic in
`generate_message`; `done` = the line was shown (and possibly replaced). -/
inductive GetResult
  | noLine
  | exitFail
  | outOfRange
  | panicked
  | done (shown : String)
  deriving DecidableEq, Repr

/-- The get arm of `CommandLine::parse_command` (src/main.rs:342-378).
`arg` is `args.get(1)`, `input` the replacement text read from the
console.  Returns the result together with the resulting buffer. -/
def getCommand (hex_lines : List String) (arg : Option String) (input : String)
    (colors : Bool) : GetResult × List String :=
  match arg with
  | none => (.noLine, hex_lines)
  | some line =>
      if line = "" then (.noLine, hex_lines)
      else
        match parseHexI32 line with
        | none => (.exitFail, hex_lines)
        | some v =>
            let decimal_value := i32Div16AsUsize v
            if hex_lines.length < decimal_value then (.outOfRange, hex_lines)
            else if h : decimal_value < hex_lines.length then
              let line_found := hex_lines.get ⟨decimal_value, h⟩
              if input = "" then (.done line_found, hex_lines)
              else
                let newLines := hex_lines.set decimal_value input
                match generate_message newLines colors with
                | none => (.panicked, newLines)
                | some _ => (.done line_found, newLines)
            else (.panicked, hex_lines)

/-- One row `i` of the `levenshtein_distance` matrix (src/main.rs:165-184),
computed from rows `i-2` (`pp`, only read when `i > 1`) and `i-1` (`p`).
All character accesses are in range wherever the row is used, so the
`getD` defaults are never the deciding value. -/
def ldNextRow (s1 s2 : List Char) (i : Nat) (pp p : List Nat) : List Nat :=
  (List.range s2.length).foldl
    (fun row jm1 =>
      let j := jm1 + 1
      let cost := if s1.getD (i - 1) 'a' = s2.getD (j - 1) 'a' then 0 else 1
      let v := min (min (p.getD j 0 + 1) (row.getD (j - 1) 0 + 1)) (p.getD (j - 1) 0 + cost)
      let v2 :=
        if 1 < i ∧ 1 < j ∧ s1.getD (i - 1) 'a' = s2.getD (j - 2) 'a' ∧
            s1.getD (i - 2) 'a' = s2.getD (j - 1) 'a' then
          min v (pp.getD (j - 2) 0 + cost)
        else v
      row ++ [v2])
    [i]

/-- `levenshtein_distance` (src/main.rs:152-187): the DP matrix with
deletion/insertion/substitution cost 1 and the adjacent-transposition
refinement; returns `matrix[len1][len2]`. -/
def levenshtein_distance (string1 string2 : String) : Nat :=
  let s1 := string1.data
  let s2 := string2.data
  let final := (List.range s1.length).foldl
    (fun st im1 => (st.2, ldNextRow s1 s2 (im1 + 1) st.1 st.2))
    (([] : List Nat), List.range (s2.length + 1))
  (final.2).getD s2.length 0

/-- The fuzzy-match loop shared by `print_unknown_command_error`
(src/main.rs:34-49) and the unknown-command arm of `parse_command`
(src/main.rs:415-431): `closest_match` starts as `(0, "")` and is
replaced whenever `distance < closest_match.0 || closest_match.0 == 0`. -/
def suggestLoop (input : String) : List String → Nat × String → Nat × String
  | [], closest => closest
  | command :: rest, closest =>
      let distance := levenshtein_distance input command
      suggestLoop input rest
        (if distance < closest.1 ∨ closest.1 = 0 then (distance, command) else closest)

/-- The suggestion produced for an unknown command. -/
def suggest (input : String) (commands : List String) : String :=
  (suggestLoop input commands (0, "")).2

/-- Modelled from the spec (§4.3 tie-break policy): scan the candidates
keeping the first candidate seen whose distance is strictly smaller than
the best so far, so ties resolve to candidate list order. -/
def firstMinBy (input : String) (c : String) : List String → String
  | [] => c
  | d :: ds =>
      if levenshtein_distance input d < levenshtein_distance input c then firstMinBy input d ds
      else firstMinBy input c ds

/-- The runtime command names (src/main.rs:303-308). -/
def commandNames : List String :=
  ["help", "quit", "get", "save"]

/-- Startup load-and-parse: `File::open`/`read_to_string`
(src/main.rs:224-228, both `expect`ed: `none` models the panic, which in
particular hits any file that is not valid UTF-8) followed by the
chunking loop of `parse_file`.  `fileOk` models OS-level open/read
success. -/
def loadParse (contents : List Nat) (fileOk : Bool) : Option (List String) :=
  if fileOk = false then none
  else
    match utf8Decode contents with
    | none => none
    | some chars => some (parseLines (utf8Encode chars))


/-- The hex decode of every stored line (spaces stripped), in line order. -/
def lineBytes (hex_lines : List String) : Option (List (List Nat)) :=
  hex_lines.mapM (fun l => hex_to_bytes (replaceSpaces l))

theorem decodeLinesChars_eq (hex_lines : List String) :
    ∀ (bss : List (List Nat)), lineBytes hex_lines = some bss →
      (∀ bs ∈ bss, (utf8Decode bs).isSome) →
      ∃ cs, decodeLinesChars hex_lines = some cs ∧ utf8Encode cs = bss.flatten := by
  induction hex_lines with
  | nil =>
      intro bss hbss _
      simp only [lineBytes, List.mapM_nil, Option.pure_def, Option.some_inj] at hbss
      subst hbss
      exact ⟨[], rfl, rfl⟩
  | cons l rest ih =>
      intro bss hbss hok
      simp only [lineBytes, List.mapM_cons, Option.pure_def, Option.bind_eq_bind,
        Option.bind_eq_some, Option.some_inj] at hbss
      obtain ⟨bs, hbs, bss', hbss', rfl⟩ := hbss
      have hu : (utf8Decode bs).isSome := hok bs (List.mem_cons_self _ _)
      obtain ⟨cs0, hcs0⟩ := Option.isSome_iff_exists.mp hu
      obtain ⟨cs', hcs', henc⟩ := ih bss' hbss' (fun b hb => hok b (List.mem_cons_of_mem _ hb))
      refine ⟨cs0 ++ cs', ?_, ?_⟩
      · simp [decodeLinesChars, decodeLineChars, hbs, hcs0, hcs']
      · show utf8Encode (cs0 ++ cs') = (bs :: bss').flatten
        unfold utf8Encode
        rw [List.flatMap_append]
        show utf8Encode cs0 ++ utf8Encode cs' = (bs :: bss').flatten
        rw [henc, utf8Encode_of_decode bs cs0 hcs0, List.flatten_cons]

/-- If any stored line fails to hex-decode, the whole save decode panics. -/
theorem decodeLinesChars_none (hex_lines : List String)
    (h : ∃ l ∈ hex_lines, hex_to_bytes (replaceSpaces l) = none) :
    decodeLinesChars hex_lines = none := by
  induction hex_lines with
  | nil => simp at h
  | cons l rest ih =>
      obtain ⟨l0, hl0, hdec⟩ := h
      rcases List.mem_cons.mp hl0 with rfl | hmem
      · simp only [decodeLinesChars, decodeLineChars, hdec, Option.bind_eq_bind,
          Option.none_bind]
      · have htail := ih ⟨l0, hmem, hdec⟩
        show (decodeLineChars l).bind
          (fun cs => (decodeLinesChars rest).bind (fun tail => some (cs ++ tail))) = none
        rw [htail]
        cases decodeLineChars l <;> rfl

/-- Every stored line produced by `parse_file` hex-decodes back to its
chunk. -/
theorem lineBytes_parseLines (chunks : List (List Nat))
    (hb : ∀ c ∈ chunks, ∀ b ∈ c, b < 256) :
    lineBytes (chunks.map hexLineOfChunk) = some chunks := by
  induction chunks with
  | nil => rfl
  | cons c rest ih =>
      simp only [List.map_cons, lineBytes, List.mapM_cons,
        hexLine_decode c (hb c (List.mem_cons_self _ _)), Option.pure_def,
        Option.bind_eq_bind, Option.some_bind]
      have := ih (fun c2 hc2 => hb c2 (List.mem_cons_of_mem _ hc2))
      simp only [lineBytes] at this
      rw [this]
      rfl

theorem genLoop_isSome (colors : Bool) (chunks : List (List Nat))
    (hb : ∀ c ∈ chunks, ∀ b ∈ c, b < 256)
    (hu : ∀ c ∈ chunks, (utf8Decode c).isSome) :
    ∀ offset, (genLoop colors (chunks.map hexLineOfChunk) offset).isSome := by
  induction chunks with
  | nil => intro offset; simp [genLoop]
  | cons c rest ih =>
      intro offset
      obtain ⟨cs, hcs⟩ := Option.isSome_iff_exists.mp (hu c (List.mem_cons_self _ _))
      simp only [List.map_cons, genLoop, renderLine,
        hexLine_decode c (hb c (List.mem_cons_self _ _)), hcs]
      have := ih (fun c2 h2 => hb c2 (List.mem_cons_of_mem _ h2))
        (fun c2 h2 => hu c2 (List.mem_cons_of_mem _ h2)) (offset + 16)
      obtain ⟨t, ht⟩ := Option.isSome_iff_exists.mp this
      rw [ht]
      rfl

/-- Every byte of a valid-UTF-8 byte list is below 256. -/
theorem bytes_lt_of_utf8Decode (B : List Nat) (chars : List Char)
    (h : utf8Decode B = some chars) : ∀ b ∈ B, b < 256 := by
  intro b hb
  have henc := utf8Encode_of_decode B chars h
  rw [← henc] at hb
  exact utf8Encode_lt chars b hb

theorem chunk_bytes_lt (B : List Nat) (hb : ∀ b ∈ B, b < 256) :
    ∀ c ∈ chunksOf 16 B, ∀ b ∈ c, b < 256 := by
  intro c hc b hbc
  apply hb
  have : b ∈ (chunksOf 16 B).flatten := List.mem_flatten.mpr ⟨c, hc, hbc⟩
  rwa [chunksOf_flatten 16 (by norm_num)] at this


/-- The decode loop reports `invalidHexDigit` as soon as any character in
the remaining input is not a hex digit. -/
theorem hexLoopE_invalid (cs : List Char) :
    ∀ bytes byte nc, (∃ c ∈ cs, charToDigit16 c = none) →
      hexLoopE cs bytes byte nc = .error .invalidHexDigit := by
  induction cs with
  | nil => intro _ _ _ h; simp at h
  | cons c rest ih =>
      intro bytes byte nc h
      obtain ⟨c0, hc0, hbad⟩ := h
      rcases List.mem_cons.mp hc0 with rfl | hmem
      · simp [hexLoopE, hbad]
      · cases hx : charToDigit16 c with
        | none => simp [hexLoopE, hx]
        | some d =>
            simp only [hexLoopE, hx]
            split <;> exact ih _ _ _ ⟨c0, hmem, hbad⟩

/-- With only valid digits but an odd number of them (counting a pending
nibble), the decode loop reports `oddLength` at the end. -/
theorem hexLoopE_odd (cs : List Char) :
    ∀ bytes byte nc, (∀ c ∈ cs, (charToDigit16 c).isSome) → nc ≤ 1 →
      (cs.length + nc) % 2 = 1 → hexLoopE cs bytes byte nc = .error .oddLength := by
  induction cs with
  | nil =>
      intro bytes byte nc _ hnc hodd
      simp only [List.length_nil, Nat.zero_add] at hodd
      have : nc = 1 := by omega
      subst this
      simp [hexLoopE]
  | cons c rest ih =>
      intro bytes byte nc hval hnc hodd
      obtain ⟨d, hd⟩ := Option.isSome_iff_exists.mp (hval c (List.mem_cons_self _ _))
      simp only [hexLoopE, hd]
      have hval2 : ∀ x ∈ rest, (charToDigit16 x).isSome :=
        fun x hx => hval x (List.mem_cons_of_mem _ hx)
      simp only [List.length_cons] at hodd
      split
      · rename_i h2
        exact ih _ _ _ hval2 (by omega) (by omega)
      · rename_i h2
        have : nc = 0 := by omega
        subst this
        exact ih _ _ _ hval2 (by omega) (by omega)

/-- After the first candidate, `suggestLoop` keeps the earliest
strictly-better candidate — provided the running best distance never
becomes 0. -/
theorem suggestLoop_firstMin (input : String) (cands : List String) :
    ∀ (best : String), levenshtein_distance input best ≠ 0 →
      (∀ x ∈ cands, levenshtein_distance input x ≠ 0) →
      (suggestLoop input cands (levenshtein_distance input best, best)).2 =
        firstMinBy input best cands := by
  induction cands with
  | nil => intro best _ _; rfl
  | cons c rest ih =>
      intro best hb hall
      simp only [suggestLoop, firstMinBy]
      by_cases hlt : levenshtein_distance input c < levenshtein_distance input best
      · rw [if_pos (Or.inl hlt), if_pos hlt]
        exact ih c (hall c (List.mem_cons_self _ _))
          (fun x hx => hall x (List.mem_cons_of_mem _ hx))
      · rw [if_neg (by simpa [hlt] using hb), if_neg hlt]
        exact ih best hb (fun x hx => hall x (List.mem_cons_of_mem _ hx))

/-- `firstMinBy` attains the minimum distance over the candidates. -/
theorem firstMinBy_min (input : String) (cands : List String) :
    ∀ best x, x ∈ best :: cands →
      levenshtein_distance input (firstMinBy input best cands) ≤
        levenshtein_distance input x := by
  induction cands with
  | nil =>
      intro best x hx
      rcases List.mem_cons.mp hx with heq | hx
      · rw [heq]
        exact le_rfl
      · simp at hx
  | cons c rest ih =>
      intro best x hx
      simp only [firstMinBy]
      by_cases hlt : levenshtein_distance input c < levenshtein_distance input best
      · rw [if_pos hlt]
        rcases List.mem_cons.mp hx with heq | hx2
        · rw [heq]
          exact le_trans (ih c c (List.mem_cons_self _ _)) (le_of_lt hlt)
        · rcases List.mem_cons.mp hx2 with heq | hx3
          · rw [heq]
            exact ih c c (List.mem_cons_self _ _)
          · exact ih c x (List.mem_cons.mpr (Or.inr hx3))
      · rw [if_neg hlt]
        rcases List.mem_cons.mp hx with heq | hx2
        · rw [heq]
          exact ih best best (List.mem_cons_self _ _)
        · rcases List.mem_cons.mp hx2 with heq | hx3
          · rw [heq]
            exact le_trans (ih best best (List.mem_cons_self _ _)) (by omega)
          · exact ih best x (List.mem_cons.mpr (Or.inr hx3))

/-! ## Claim theorems -/

/-- C1: for every byte sequence B (bytes of a Rust `u8` slice, hence
below 256), decoding (`hex_to_bytes`) the hex text produced by encoding
B — each byte as exactly two upper-case hex digits via `"{:02X} "`, with
the space separators stripped — succeeds and returns exactly B. -/
theorem C1_roundtrip (B : List Nat) (hB : ∀ b ∈ B, b < 256) :
    hex_to_bytes (replaceSpaces (hexLineOfChunk B)) = some B :=
  hexLine_decode B hB

theorem C1_roundtrip_witness :
    hex_to_bytes (replaceSpaces (hexLineOfChunk [0, 72, 171, 255])) = some [0, 72, 171, 255] :=
  C1_roundtrip [0, 72, 171, 255] (by decide)

/-- C5 counterexample: with buffer `["48 "]` and command `get zz`, the
offset fails to parse and the code prints the error and calls
`process::exit(1)` (modelled by `exitFail`), so — contrary to the claim —
the process terminates instead of reporting `InvalidOffset` and
returning control to the command prompt. -/
theorem C5_counterexample :
    getCommand ["48 "] (some "zz") "" false = (.exitFail, ["48 "]) := by
  decide

/-- C5 (amended): for every `get` whose non-empty offset argument does
not parse as a base-16 `i32`, the code reports the invalid value and
terminates the process with exit status 1; the buffer is not altered
before the exit. -/
theorem C5_amended (hex_lines : List String) (arg input : String) (colors : Bool)
    (hne : arg ≠ "") (hparse : parseHexI32 arg = none) :
    getCommand hex_lines (some arg) input colors = (.exitFail, hex_lines) := by
  simp [getCommand, hne, hparse]

theorem C5_amended_witness :
    getCommand ["48 ", "65 "] (some "0x") "" false = (.exitFail, ["48 ", "65 "]) :=
  C5_amended ["48 ", "65 "] "0x" "" false (by decide) (by decide)

/-- C6 counterexample: buffer of one stored line and command `get 10`
(hex offset 16, line index 16/16 = 1 = line count).  The claim demands
`LineOutOfRange` to be reported with the process alive, but the bound
check uses `>` rather than `>=`, so the code indexes `hex_lines[1]` out
of bounds and panics, terminating the process. -/
theorem C6_counterexample :
    getCommand ["48 "] (some "10") "" false = (.panicked, ["48 "]) := by
  decide

/-- C6 (amended): for `get` with a parsed offset `v`, writing `idx` for
`(v / 16) as usize`: if `idx` strictly exceeds the stored line count the
code reports "Line out of range." and returns to the prompt with the
buffer unchanged and the process alive; but if `idx` equals the line
count (the boundary case the claim also covers), the indexing panics
and the process terminates. -/
theorem C6_amended (hex_lines : List String) (line input : String) (colors : Bool)
    (v : Int) (hne : line ≠ "") (hp : parseHexI32 line = some v) :
    (hex_lines.length < i32Div16AsUsize v →
      getCommand hex_lines (some line) input colors = (.outOfRange, hex_lines)) ∧
    (i32Div16AsUsize v = hex_lines.length →
      getCommand hex_lines (some line) input colors = (.panicked, hex_lines)) := by
  constructor
  · intro hgt
    simp [getCommand, hne, hp, hgt]
  · intro heq
    simp [getCommand, hne, hp, heq]

theorem C6_amended_witness :
    getCommand ["48 "] (some "30") "" false = (.outOfRange, ["48 "]) ∧
      getCommand ["48 "] (some "10") "" false = (.panicked, ["48 "]) :=
  ⟨(C6_amended ["48 "] "30" "" false 48 (by decide) (by decide)).1 (by decide),
   (C6_amended ["48 "] "10" "" false 16 (by decide) (by decide)).2 (by decide)⟩

/-- C8 counterexample: for the two-byte chunk `[0x48, 0x65]` the stored
line is `"48 65 "` — with a space already at character index 2, right
after the first encoded byte.  The claim ("a space inserted after every
2 encoded bytes", i.e. four contiguous hex digits per group) would give
`"4865 "` or `"4865"` instead. -/
theorem C8_counterexample :
    (hexLineOfChunk [72, 101]).data = ['4', '8', ' ', '6', '5', ' '] ∧
      (hexLineOfChunk [72, 101]).data.get? 2 = some ' ' ∧
      hexLineOfChunk [72, 101] ≠ "4865 " ∧ hexLineOfChunk [72, 101] ≠ "4865" := by
  decide

/-- C8 (amended): the stored hex line carries a space after EVERY
encoded byte (`"{:02X} "` per byte, the inner grouping in pairs having
no textual effect), so a chunk of n ≤ 16 bytes yields n two-digit
groups and 3·n characters — up to 16 groups per line, not 8. -/
theorem C8_amended (chunk : List Nat) :
    (hexLineOfChunk chunk).data = chunk.flatMap byteToHexSp ∧
      (hexLineOfChunk chunk).data.length = 3 * chunk.length := by
  have he : (hexLineOfChunk chunk).data = chunk.flatMap byteToHexSp := by
    rw [hexLineOfChunk_eq]
  refine ⟨he, ?_⟩
  rw [he]
  clear he
  induction chunk with
  | nil => rfl
  | cons b rest ih =>
      simp only [List.flatMap_cons, List.length_append, ih, List.length_cons]
      have h3 : (byteToHexSp b).length = 3 := rfl
      rw [h3]
      ring

/-- C9: `hex_to_bytes` failure modes, with the two `return None` sites
named as in the spec (`hexToBytesE` tags them): `decode("A")` fails with
`OddLength`, `decode("ZZ")` fails with `InvalidHexDigit`, `decode("")`
succeeds with the empty byte sequence; in general a non-hex character
anywhere yields `InvalidHexDigit`, and all-valid digits in odd number
yield `OddLength`. -/
theorem C9_decode_errors :
    hexToBytesE "A" = .error .oddLength ∧
    hexToBytesE "ZZ" = .error .invalidHexDigit ∧
    hex_to_bytes "" = some [] ∧
    (∀ s : String, (∃ c ∈ s.data, charToDigit16 c = none) →
      hexToBytesE s = .error .invalidHexDigit) ∧
    (∀ s : String, (∀ c ∈ s.data, (charToDigit16 c).isSome) → s.data.length % 2 = 1 →
      hexToBytesE s = .error .oddLength) := by
  refine ⟨rfl, rfl, rfl, ?_, ?_⟩
  · intro s hs
    exact hexLoopE_invalid s.data [] 0 0 hs
  · intro s hval hodd
    exact hexLoopE_odd s.data [] 0 0 hval (by omega) (by omega)

theorem C9_decode_errors_witness :
    hexToBytesE "0Z" = .error .invalidHexDigit ∧
      hexToBytesE "123" = .error .oddLength :=
  ⟨C9_decode_errors.2.2.2.1 "0Z" ⟨'Z', by decide, by decide⟩,
   C9_decode_errors.2.2.2.2 "123" (by decide) (by decide)⟩

/-- C10 counterexample: `suggest("help", ["help", "quit"])` returns
`"quit"` (distance 4) although `"help"` is a candidate at distance 0:
because `closest_match` starts at distance 0 and the update condition
re-fires whenever the best distance is 0, a zero-distance candidate is
displaced by whatever follows it — the claimed "smallest distance, ties
to earliest" selection fails. -/
theorem C10_counterexample :
    suggest "help" ["help", "quit"] = "quit" ∧
      levenshtein_distance "help" "help" = 0 ∧
      levenshtein_distance "help" "quit" = 4 := by
  decide

/-- C10 (amended): provided every candidate is at nonzero edit distance
from the input (true for every reachable unknown-command call, an exact
match having been dispatched earlier), `suggest` returns the first
candidate attaining the minimal code edit distance (ties resolve to
candidate list order); in particular
`suggest("hepl", ["help","quit","get","save"])` returns `"help"`. -/
theorem C10_amended :
    (∀ (input c : String) (cs : List String),
      (∀ x ∈ c :: cs, levenshtein_distance input x ≠ 0) →
        suggest input (c :: cs) = firstMinBy input c cs ∧
        (∀ x ∈ c :: cs, levenshtein_distance input (firstMinBy input c cs) ≤
          levenshtein_distance input x)) ∧
    suggest "hepl" commandNames = "help" := by
  constructor
  · intro input c cs hall
    have hc : levenshtein_distance input c ≠ 0 := hall c (List.mem_cons_self _ _)
    have hrest : ∀ x ∈ cs, levenshtein_distance input x ≠ 0 :=
      fun x hx => hall x (List.mem_cons_of_mem _ hx)
    constructor
    · show (suggestLoop input (c :: cs) (0, "")).2 = firstMinBy input c cs
      simp only [suggestLoop]
      rw [if_pos (Or.inr trivial)]
      exact suggestLoop_firstMin input cs c hc hrest
    · exact firstMinBy_min input cs c
  · decide

theorem C10_amended_witness :
    suggest "hepl" ["help", "quit", "get", "save"] = firstMinBy "hepl" "help" ["quit", "get", "save"] :=
  (C10_amended.1 "hepl" "help" ["quit", "get", "save"] (by decide)).1


/-- Part 1 of the amended C2: all lines decoding and all decoded bytes
being valid UTF-8, save writes the concatenation of the decoded bytes. -/
theorem saveCommand_writes (hex_lines : List String) (arg : Option String) (path : String)
    (bss : List (List Nat)) (hbss : lineBytes hex_lines = some bss)
    (hok : ∀ bs ∈ bss, (utf8Decode bs).isSome) :
    saveCommand hex_lines arg path true true true = .exited bss.flatten (arg.getD path) := by
  obtain ⟨cs, hcs, henc⟩ := decodeLinesChars_eq hex_lines bss hbss hok
  simp [saveCommand, hcs, henc]

/-- C2 counterexample: the buffer `["FF "]` — reachable by a user edit —
hex-decodes successfully (to `[0xFF]`), yet save panics in
`String::from_utf8(bytes).unwrap()` because `0xFF` is not valid UTF-8,
and nothing is written: the claim's conclusion fails although its
premise (all hex lines decode) holds. -/
theorem C2_counterexample :
    hex_to_bytes (replaceSpaces "FF ") = some [255] ∧
      saveCommand ["FF "] none "f" true true true = .panicked := by
  decide

/-- C2 (amended): whenever every stored hex line decodes successfully
AND each line's decoded bytes form valid UTF-8, save strips the spaces,
decodes each line, concatenates the results in line order and writes
exactly that byte sequence to the chosen path (the argument if given,
else the editor's file path), then exits; in particular a parsed,
unedited buffer all of whose 16-byte chunks are valid UTF-8 writes the
original bytes back verbatim. -/
theorem C2_amended :
    (∀ (hex_lines : List String) (arg : Option String) (path : String)
        (bss : List (List Nat)),
      lineBytes hex_lines = some bss →
      (∀ bs ∈ bss, (utf8Decode bs).isSome) →
      saveCommand hex_lines arg path true true true = .exited bss.flatten (arg.getD path)) ∧
    (∀ (B : List Nat) (chars : List Char) (path : String),
      utf8Decode B = some chars →
      (∀ c ∈ chunksOf 16 B, (utf8Decode c).isSome) →
      saveCommand (parseLines B) none path true true true = .exited B path) := by
  constructor
  · exact saveCommand_writes
  · intro B chars path hdec hok
    have hb : ∀ b ∈ B, b < 256 := bytes_lt_of_utf8Decode B chars hdec
    have hlb : lineBytes (parseLines B) = some (chunksOf 16 B) :=
      lineBytes_parseLines _ (chunk_bytes_lt B hb)
    have h1 := saveCommand_writes (parseLines B) none path (chunksOf 16 B) hlb hok
    rwa [chunksOf_flatten 16 (by norm_num)] at h1

theorem C2_amended_witness :
    saveCommand ["48 65 "] none "out" true true true = .exited [72, 101] "out" :=
  C2_amended.1 ["48 65 "] none "out" [[72, 101]] (by decide) (by decide)

/-- C4 counterexample: with the buffer `["GG "]` (reachable by a user
edit; `G` is not a hex digit) save hits `hex_to_bytes(...).unwrap()` and
panics: the process terminates, no error is reported to the prompt, and
save is not retryable — contrary to the claim. -/
theorem C4_counterexample :
    hex_to_bytes (replaceSpaces "GG ") = none ∧
      saveCommand ["GG "] none "f" true true true = .panicked := by
  decide

/-- C4 (amended): every save failure panics and thereby terminates the
process — a hex line that fails to decode, a `File::create` failure and
a `write_all` failure each hit an `unwrap`; the error is not reported
gracefully and control never returns to the command prompt. -/
theorem C4_amended :
    (∀ (hex_lines : List String) (arg : Option String) (path : String) (w c : Bool),
      (∃ l ∈ hex_lines, hex_to_bytes (replaceSpaces l) = none) →
        saveCommand hex_lines arg path true w c = .panicked) ∧
    (∀ (hex_lines : List String) (arg : Option String) (path : String) (w c : Bool),
      saveCommand hex_lines arg path false w c = .panicked) ∧
    (∀ (hex_lines : List String) (arg : Option String) (path : String) (c : Bool),
      saveCommand hex_lines arg path true false c = .panicked) := by
  refine ⟨?_, ?_, ?_⟩
  · intro hex_lines arg path w c hfail
    rw [saveCommand]
    simp [decodeLinesChars_none hex_lines hfail]
  · intro hex_lines arg path w c
    simp [saveCommand]
  · intro hex_lines arg path c
    rw [saveCommand]
    cases hdec : decodeLinesChars hex_lines <;> simp [hdec]

theorem C4_amended_witness :
    saveCommand ["GG "] none "file" true true true = .panicked :=
  C4_amended.1 ["GG "] none "file" true true ⟨"GG ", by decide, by decide⟩

/-- C3 counterexample: the one-byte file `[0xFF]` is rejected at load —
`read_to_string` fails on content that is not valid UTF-8 and the
`expect` panics — contrary to the claim that any byte sequence is
accepted. -/
theorem C3_counterexample : loadParse [255] true = none := by
  decide

/-- C3 (amended): every byte sequence B that is valid UTF-8 (the only
ones `read_to_string` accepts) loads successfully and parse partitions
it into `ceil(n/16)` hex lines in order; every line decodes back to its
chunk, every chunk except possibly the last has exactly 16 bytes, and
the last has `n mod 16` bytes (or 16 when 16 divides n). -/
theorem C3_amended (B : List Nat) (chars : List Char) (hdec : utf8Decode B = some chars) :
    loadParse B true = some (parseLines B) ∧
    (parseLines B).length = (B.length + 15) / 16 ∧
    (∀ i, i < (parseLines B).length →
      ∃ chunk, (chunksOf 16 B).get? i = some chunk ∧
        (parseLines B).get? i = some (hexLineOfChunk chunk) ∧
        hex_to_bytes (replaceSpaces (hexLineOfChunk chunk)) = some chunk ∧
        chunk.length = (if i + 1 < (parseLines B).length then 16
          else B.length - 16 * ((parseLines B).length - 1))) ∧
    (B ≠ [] → B.length - 16 * ((parseLines B).length - 1)
      = (if B.length % 16 = 0 then 16 else B.length % 16)) := by
  have hb : ∀ b ∈ B, b < 256 := bytes_lt_of_utf8Decode B chars hdec
  have hlen : (parseLines B).length = (B.length + 15) / 16 := by
    simp only [parseLines, List.length_map]
    have := chunksOf_length 16 (by norm_num) B
    omega
  refine ⟨?_, hlen, ?_, ?_⟩
  · simp [loadParse, hdec, utf8Encode_of_decode B chars hdec]
  · intro i hi
    have hic : i < (chunksOf 16 B).length := by
      simpa [parseLines, List.length_map] using hi
    have hget := chunksOf_get? 16 (by norm_num) i B hic
    refine ⟨(B.drop (16 * i)).take 16, hget, ?_, ?_, ?_⟩
    · simp only [parseLines, List.get?_map, hget, Option.map_some]
      rfl
    · apply hexLine_decode
      intro b hbc
      exact hb b (List.mem_of_mem_drop (List.mem_of_mem_take hbc))
    · have hclen : ((B.drop (16 * i)).take 16).length = min 16 (B.length - 16 * i) := by
        simp [List.length_take, List.length_drop]
      rw [hclen]
      rw [hlen] at hi ⊢
      split
      · rename_i hlt
        omega
      · rename_i hge
        omega
  · intro hne
    have h0 : B.length ≠ 0 := fun h => hne (List.eq_nil_of_length_eq_zero h)
    rw [hlen]
    split <;> omega

theorem C3_amended_witness :
    loadParse [72, 101] true = some (parseLines [72, 101]) ∧
      (parseLines [72, 101]).length = 1 :=
  ⟨(C3_amended [72, 101] ['H', 'e'] (by decide)).1,
   (C3_amended [72, 101] ['H', 'e'] (by decide)).2.1⟩

/-- C7 counterexample: the 17-byte file `15 × 'a'` followed by `'é'`
(bytes 0xC3 0xA9) is valid UTF-8 and loads, but the 16-byte chunking
splits the two-byte character, so the first chunk is not valid UTF-8:
`generate_message`'s `String::from_utf8` `expect` panics on well-formed
parsed state and no dump string is produced (while the hex-decode
`expect` — the claim's CorruptLine — indeed never fires). -/
theorem C7_counterexample :
    (utf8Decode (List.replicate 15 97 ++ [195, 169])).isSome ∧
      generate_message (parseLines (List.replicate 15 97 ++ [195, 169])) false = none := by
  decide

/-- C7 (amended): on the buffer produced by parsing a loaded (hence
valid-UTF-8) file with no intervening edit, the hex-decode step of
render never fails — the CorruptLine branch is unreachable — and a dump
string is produced whenever additionally every 16-byte chunk of the file
is itself valid UTF-8 (always true for ASCII files); the byte-to-text
conversion is the only remaining failure point. -/
theorem C7_amended (B : List Nat) (chars : List Char) (colors : Bool)
    (hdec : utf8Decode B = some chars) :
    (∀ l ∈ parseLines B, hex_to_bytes (replaceSpaces l) ≠ none) ∧
    ((∀ c ∈ chunksOf 16 B, (utf8Decode c).isSome) →
      (generate_message (parseLines B) colors).isSome) := by
  have hb : ∀ b ∈ B, b < 256 := bytes_lt_of_utf8Decode B chars hdec
  have hcb := chunk_bytes_lt B hb
  constructor
  · intro l hl
    simp only [parseLines, List.mem_map] at hl
    obtain ⟨chunk, hc, rfl⟩ := hl
    rw [hexLine_decode chunk (hcb chunk hc)]
    simp
  · intro hok
    have hsome := genLoop_isSome colors (chunksOf 16 B) hcb hok 0
    obtain ⟨t, ht⟩ := Option.isSome_iff_exists.mp hsome
    simp only [generate_message, parseLines, ht, Option.map_some]
    rfl

theorem C7_amended_witness :
    (generate_message (parseLines [72, 101]) false).isSome :=
  (C7_amended [72, 101] ['H', 'e'] false (by decide)).2 (by decide)


end HexIt
